import Mathlib

/-!
Verification of the protocol-agnostic replication core (region maps,
store views, master handlers, registrant lifecycle, one-waiter condition)
against its natural-language specification.

Regions are modelled as finite sets of keys (keys are naturals): the
protocol module that supplies the concrete `region_t` is outside the
core, and the spec describes a region as a decidable subset of the
keyspace carrying the region algebra below.
-/

/-- Modelled from the spec: a region is a decidable subset of the keyspace
(the concrete `protocol_t::region_t` is supplied by the protocol module,
which is not part of the core). Keys are drawn from the naturals. -/
abbrev region_t := Finset ℕ

/-- Modelled from the spec: `join(set of regions) → region`, the union of
a collection of (pairwise disjoint) regions. -/
def region_join (rs : List region_t) : region_t :=
  rs.foldl (· ∪ ·) ∅

/-- Modelled from the spec: `intersection(r1, r2)`. -/
def region_intersection (r1 r2 : region_t) : region_t :=
  r1 ∩ r2

/-- Modelled from the spec: `is_superset(outer, inner)`. -/
def region_is_superset (outer inner : region_t) : Bool :=
  decide (inner ⊆ outer)

/-- Default implementation from `protocol_api.hpp`:
`region_is_empty(r) = region_is_superset(region_t::empty(), r)`. -/
def region_is_empty (r : region_t) : Bool :=
  region_is_superset ∅ r

/-- Modelled from the spec: `subtract_many(r, rs) → set of regions`,
the part of `r` not covered by any region of `rs` (the concrete
implementation lives in the protocol module). An empty difference
contributes no region. -/
def region_subtract_many (r : region_t) (rs : List region_t) : List region_t :=
  let d := r \ region_join rs
  if d = ∅ then [] else [d]

/-- Embedding of `region_map_t` from `protocol_api.hpp`: an ordered list
of (region, value) pairs; the intended invariant is that the regions are
pairwise disjoint. -/
structure region_map_t (V : Type) : Type where
  regions_and_values : List (region_t × V)

namespace region_map_t

variable {V : Type}

/-- Embedding of `region_map_t::get_domain`: the join of all regions. -/
def get_domain (m : region_map_t V) : region_t :=
  region_join (m.regions_and_values.map Prod.fst)

/-- Embedding of `region_map_t::mask`: intersect every pair's region with
`region`, keeping only pairs with a nonempty intersection. -/
def mask (m : region_map_t V) (region : region_t) : region_map_t V :=
  ⟨m.regions_and_values.filterMap fun p =>
    let ixn := region_intersection p.1 region
    if region_is_empty ixn then none else some (ixn, p.2)⟩

/-- Embedding of `region_map_t::update`: subtract the overlay regions
from every existing pair, keep the remainders with their old values, and
append the pairs of `new_values`. -/
def update (m : region_map_t V) (new_values : region_map_t V) : region_map_t V :=
  let overlay_regions := new_values.regions_and_values.map Prod.fst
  ⟨(m.regions_and_values.flatMap fun p =>
      (region_subtract_many p.1 overlay_regions).map fun j => (j, p.2))
    ++ new_values.regions_and_values⟩

/-- Embedding of `region_map_t::set`: `update` with a one-pair map. -/
def set (m : region_map_t V) (r : region_t) (v : V) : region_map_t V :=
  m.update ⟨[(r, v)]⟩

end region_map_t

/-- Embedding of `operator==(region_map_t, region_map_t)`: domains must
be equal, and for every pair `(r, v)` of the left map, every pair of the
right map masked by `r` must carry the value `v`. -/
def region_map_eq {V : Type} [DecidableEq V]
    (left right : region_map_t V) : Bool :=
  decide (left.get_domain = right.get_domain) &&
    left.regions_and_values.all fun p =>
      (right.mask p.1).regions_and_values.all fun q => decide (q.2 = p.2)

/-- Embedding of `region_map_transform`: apply `callable` to every value,
keeping every region. -/
def region_map_transform {V W : Type}
    (original : region_map_t V) (callable : V → W) : region_map_t W :=
  ⟨original.regions_and_values.map fun p => (p.1, callable p.2)⟩

/-- The invariant stated in `protocol_api.hpp`: regions contained in a
`region_map_t` never intersect (pairwise-disjoint entries). -/
def pairwise_disjoint {V : Type} (m : region_map_t V) : Prop :=
  m.regions_and_values.Pairwise fun p q => p.1 ∩ q.1 = ∅

instance pairwise_disjoint_dec {V : Type} (m : region_map_t V) :
    Decidable (pairwise_disjoint m) :=
  inferInstanceAs (Decidable (List.Pairwise _ _))

/-- Denotation of a region map as a piecewise-constant partial function:
the value of the first pair whose region contains the key. -/
def valueAt {V : Type} (m : region_map_t V) (k : ℕ) : Option V :=
  (m.regions_and_values.find? fun p => decide (k ∈ p.1)).map Prod.snd

/- ## Basic lemmas about the region algebra -/

theorem mem_foldl_union (k : ℕ) (init : region_t) (l : List region_t) :
    k ∈ l.foldl (· ∪ ·) init ↔ k ∈ init ∨ ∃ r ∈ l, k ∈ r := by
  induction l generalizing init with
  | nil => simp
  | cons hd tl ih =>
    simp only [List.foldl_cons, ih, Finset.mem_union, List.mem_cons]
    constructor
    · rintro (⟨h | h⟩ | ⟨r, hr, hk⟩)
      · exact Or.inl h
      · exact Or.inr ⟨hd, Or.inl rfl, h⟩
      · exact Or.inr ⟨r, Or.inr hr, hk⟩
    · rintro (h | ⟨r, hr | hr, hk⟩)
      · exact Or.inl (Or.inl h)
      · exact Or.inl (Or.inr (hr ▸ hk))
      · exact Or.inr ⟨r, hr, hk⟩

theorem mem_region_join (k : ℕ) (rs : List region_t) :
    k ∈ region_join rs ↔ ∃ r ∈ rs, k ∈ r := by
  simp [region_join, mem_foldl_union]

theorem subset_region_join {r : region_t} {rs : List region_t}
    (h : r ∈ rs) : r ⊆ region_join rs :=
  fun k hk => (mem_region_join k rs).mpr ⟨r, h, hk⟩

theorem region_is_empty_iff (r : region_t) :
    region_is_empty r = true ↔ r = ∅ := by
  simp [region_is_empty, region_is_superset, Finset.subset_empty]

theorem mem_get_domain {V : Type} (m : region_map_t V) (k : ℕ) :
    k ∈ m.get_domain ↔ ∃ p ∈ m.regions_and_values, k ∈ p.1 := by
  simp [region_map_t.get_domain, mem_region_join]

/- ## C1: update preserves the domain -/

theorem update_get_domain_aux {V : Type} (m n : region_map_t V)
    (h : region_is_superset m.get_domain n.get_domain = true) (k : ℕ) :
    (k ∈ (m.update n).get_domain ↔ k ∈ m.get_domain) := by
  have hsub : n.get_domain ⊆ m.get_domain := by
    simpa [region_is_superset] using h
  simp only [mem_get_domain, region_map_t.update, List.mem_append,
    List.mem_flatMap, List.mem_map] at *
  constructor
  · rintro ⟨p, hp | hp, hk⟩
    · obtain ⟨q, hq, j, hj, rfl⟩ := hp
      refine ⟨q, hq, ?_⟩
      simp only [region_subtract_many] at hj
      split at hj
      · simp at hj
      · simp only [List.mem_singleton] at hj
        subst hj
        exact (Finset.mem_sdiff.mp hk).1
    · have : k ∈ n.get_domain := (mem_get_domain n k).mpr ⟨p, hp, hk⟩
      exact (mem_get_domain m k).mp (hsub this)
  · rintro ⟨p, hp, hk⟩
    by_cases hN : k ∈ n.get_domain
    · obtain ⟨q, hq, hkq⟩ := (mem_get_domain n k).mp hN
      exact ⟨q, Or.inr hq, hkq⟩
    · refine ⟨(p.1 \ region_join (n.regions_and_values.map Prod.fst), p.2),
        Or.inl ⟨p, hp, ?_⟩, ?_⟩
      · refine ⟨p.1 \ region_join (n.regions_and_values.map Prod.fst), ?_, rfl⟩
        simp only [region_subtract_many]
        have hne : p.1 \ region_join (n.regions_and_values.map Prod.fst) ≠ ∅ := by
          intro hemp
          have : k ∈ (∅ : region_t) := by
            rw [← hemp]
            exact Finset.mem_sdiff.mpr ⟨hk, fun hc => hN ((mem_get_domain n k).mpr (by
              simpa [region_map_t.get_domain, mem_region_join] using
                (mem_region_join k _).mp hc))⟩
          simp at this
        simp [hne]
      · exact Finset.mem_sdiff.mpr ⟨hk, fun hc => hN (by
          simpa [region_map_t.get_domain] using hc)⟩

/-- C1: for all region maps `m` and `n` with `m.get_domain()` a superset
of `n.get_domain()`, `m.update(n)` leaves the domain unchanged:
`(m.update n).get_domain = m.get_domain`. -/
theorem C1_update_preserves_domain {V : Type} (m n : region_map_t V)
    (h : region_is_superset m.get_domain n.get_domain = true) :
    (m.update n).get_domain = m.get_domain := by
  apply Finset.ext
  intro k
  exact update_get_domain_aux m n h k

/-- Witness for C1 at a concrete input. -/
theorem C1_witness :
    region_is_superset
        (region_map_t.get_domain (V := ℕ) ⟨[({0, 1, 2}, 5)]⟩)
        (region_map_t.get_domain (V := ℕ) ⟨[({1}, 7)]⟩) = true ∧
      (region_map_t.update (V := ℕ) ⟨[({0, 1, 2}, 5)]⟩ ⟨[({1}, 7)]⟩).get_domain =
        (region_map_t.get_domain (V := ℕ) ⟨[({0, 1, 2}, 5)]⟩) :=
  ⟨by decide, C1_update_preserves_domain ⟨[({0, 1, 2}, 5)]⟩ ⟨[({1}, 7)]⟩ (by decide)⟩

/- ## Mask lemmas and C5 -/

theorem mem_mask_pairs {V : Type} (m : region_map_t V) (r : region_t)
    (p : region_t × V) :
    p ∈ (m.mask r).regions_and_values ↔
      ∃ q ∈ m.regions_and_values, q.1 ∩ r ≠ ∅ ∧ p = (q.1 ∩ r, q.2) := by
  simp only [region_map_t.mask, List.mem_filterMap, region_intersection]
  constructor
  · rintro ⟨q, hq, hopt⟩
    by_cases hemp : region_is_empty (q.1 ∩ r) = true
    · simp [hemp] at hopt
    · simp only [hemp] at hopt
      simp only [Bool.false_eq_true, if_false, Option.some.injEq] at hopt
      exact ⟨q, hq, fun hc => hemp ((region_is_empty_iff _).mpr hc), hopt.symm⟩
  · rintro ⟨q, hq, hne, rfl⟩
    refine ⟨q, hq, ?_⟩
    have : region_is_empty (q.1 ∩ r) ≠ true :=
      fun hc => hne ((region_is_empty_iff _).mp hc)
    simp [this]

theorem mask_get_domain {V : Type} (m : region_map_t V) (r : region_t) :
    (m.mask r).get_domain = region_intersection r m.get_domain := by
  apply Finset.ext
  intro k
  simp only [mem_get_domain, region_intersection, Finset.mem_inter]
  constructor
  · rintro ⟨p, hp, hk⟩
    obtain ⟨q, hq, _, rfl⟩ := (mem_mask_pairs m r p).mp hp
    have := Finset.mem_inter.mp hk
    exact ⟨this.2, q, hq, this.1⟩
  · rintro ⟨hkr, q, hq, hkq⟩
    refine ⟨(q.1 ∩ r, q.2), (mem_mask_pairs m r _).mpr ⟨q, hq, ?_, rfl⟩,
      Finset.mem_inter.mpr ⟨hkq, hkr⟩⟩
    intro hc
    have : k ∈ (∅ : region_t) := hc ▸ Finset.mem_inter.mpr ⟨hkq, hkr⟩
    simp at this

theorem mask_mask_pairs {V : Type} (m : region_map_t V) (a b : region_t) :
    ((m.mask a).mask b).regions_and_values =
      (m.mask (region_intersection a b)).regions_and_values := by
  simp only [region_map_t.mask, List.filterMap_filterMap, region_intersection]
  have hfun : ∀ p : region_t × V,
      (Option.bind
        (if region_is_empty (p.1 ∩ a) then none else some (p.1 ∩ a, p.2))
        fun q => if region_is_empty (q.1 ∩ b) then none else some (q.1 ∩ b, q.2)) =
      (if region_is_empty (p.1 ∩ (a ∩ b)) then none
        else some (p.1 ∩ (a ∩ b), p.2)) := by
    intro p
    by_cases h1 : region_is_empty (p.1 ∩ a) = true
    · have hempty : p.1 ∩ a = ∅ := (region_is_empty_iff _).mp h1
      have h2 : p.1 ∩ (a ∩ b) = ∅ := by
        rw [← Finset.inter_assoc, hempty, Finset.empty_inter]
      simp [h1, (region_is_empty_iff _).mpr h2]
    · have hassoc : p.1 ∩ a ∩ b = p.1 ∩ (a ∩ b) := Finset.inter_assoc _ _ _
      by_cases h2 : region_is_empty (p.1 ∩ a ∩ b) = true
      · have h2' : region_is_empty (p.1 ∩ (a ∩ b)) = true := by
          rw [← hassoc]; exact h2
        simp [h1, h2, h2']
      · have h2' : region_is_empty (p.1 ∩ (a ∩ b)) ≠ true := by
          rw [← hassoc]; exact h2
        simp [h1, h2, h2', hassoc]
  exact List.filterMap_congr fun p _ => hfun p

/-- C5: masking composes via region intersection, and the domain of a
masked map is the intersection of the mask region with the map's domain. -/
theorem C5_mask_composition {V : Type} (m : region_map_t V) (a b r : region_t) :
    (m.mask a).mask b = m.mask (region_intersection a b) ∧
      (m.mask r).get_domain = region_intersection r m.get_domain := by
  constructor
  · cases hm : (m.mask a).mask b with
    | mk l =>
      cases hn : m.mask (region_intersection a b) with
      | mk l' =>
        have := mask_mask_pairs m a b
        rw [hm, hn] at this
        simpa using this
  · exact mask_get_domain m r

/- ## Disjointness helpers -/

theorem pairwise_disjoint_mem_eq {V : Type} {l : List (region_t × V)}
    (h : l.Pairwise fun p q => p.1 ∩ q.1 = ∅)
    {p q : region_t × V} (hp : p ∈ l) (hq : q ∈ l)
    (hne : p.1 ∩ q.1 ≠ ∅) : p = q := by
  induction l with
  | nil => simp at hp
  | cons hd tl ih =>
    rcases List.pairwise_cons.mp h with ⟨hhd, htl⟩
    rcases List.mem_cons.mp hp with rfl | hp'
    · rcases List.mem_cons.mp hq with rfl | hq'
      · rfl
      · exact absurd (hhd q hq') hne
    · rcases List.mem_cons.mp hq with rfl | hq'
      · refine absurd (hhd p hp') fun hc => hne ?_
        rw [Finset.inter_comm]
        exact hc
      · exact ih htl hp' hq'

theorem find?_of_pairwise_disjoint {V : Type} {k : ℕ}
    {l : List (region_t × V)}
    (h : l.Pairwise fun p q => p.1 ∩ q.1 = ∅)
    {p : region_t × V} (hp : p ∈ l) (hk : k ∈ p.1) :
    (l.find? fun q => decide (k ∈ q.1)) = some p := by
  induction l with
  | nil => simp at hp
  | cons hd tl ih =>
    rcases List.pairwise_cons.mp h with ⟨hhd, htl⟩
    by_cases hhdk : k ∈ hd.1
    · have hphd : p = hd := by
        rcases List.mem_cons.mp hp with rfl | hp'
        · rfl
        · exfalso
          have hc := hhd p hp'
          have : k ∈ (∅ : region_t) := hc ▸ Finset.mem_inter.mpr ⟨hhdk, hk⟩
          simp at this
      rw [hphd, List.find?_cons_of_pos _ (by simpa using hhdk)]
    · have hp' : p ∈ tl := by
        rcases List.mem_cons.mp hp with rfl | hp'
        · exact absurd hk hhdk
        · exact hp'
      rw [List.find?_cons_of_neg _ (by simpa using hhdk)]
      exact ih htl hp'

theorem valueAt_of_mem {V : Type} {m : region_map_t V}
    (h : pairwise_disjoint m) {p : region_t × V} {k : ℕ}
    (hp : p ∈ m.regions_and_values) (hk : k ∈ p.1) :
    valueAt m k = some p.2 := by
  simp [valueAt, find?_of_pairwise_disjoint h hp hk]

/- ## C4: equality is pointwise over the common domain -/

theorem region_map_eq_iff_pointwise {V : Type} [DecidableEq V]
    (a b : region_map_t V)
    (ha : pairwise_disjoint a) (hb : pairwise_disjoint b) :
    region_map_eq a b = true ↔
      (a.get_domain = b.get_domain ∧
        ∀ k ∈ a.get_domain, valueAt a k = valueAt b k) := by
  simp only [region_map_eq, Bool.and_eq_true, decide_eq_true_eq,
    List.all_eq_true]
  constructor
  · rintro ⟨hdom, hall⟩
    refine ⟨hdom, fun k hkdom => ?_⟩
    obtain ⟨p, hp, hkp⟩ := (mem_get_domain a k).mp hkdom
    obtain ⟨q, hq, hkq⟩ := (mem_get_domain b k).mp (hdom ▸ hkdom)
    have hva : valueAt a k = some p.2 := valueAt_of_mem ha hp hkp
    have hvb : valueAt b k = some q.2 := valueAt_of_mem hb hq hkq
    have hmem : (q.1 ∩ p.1, q.2) ∈ (b.mask p.1).regions_and_values := by
      refine (mem_mask_pairs b p.1 _).mpr ⟨q, hq, ?_, rfl⟩
      intro hc
      have : k ∈ (∅ : region_t) := hc ▸ Finset.mem_inter.mpr ⟨hkq, hkp⟩
      simp at this
    have := hall p hp (q.1 ∩ p.1, q.2) hmem
    rw [hva, hvb]
    simp only [decide_eq_true_eq] at this
    exact congrArg some this.symm
  · rintro ⟨hdom, hpt⟩
    refine ⟨hdom, fun p hp j hj => ?_⟩
    obtain ⟨q, hq, hne, rfl⟩ := (mem_mask_pairs b p.1 j).mp hj
    obtain ⟨k, hk⟩ := Finset.nonempty_iff_ne_empty.mpr hne
    have hkq : k ∈ q.1 := (Finset.mem_inter.mp hk).1
    have hkp : k ∈ p.1 := (Finset.mem_inter.mp hk).2
    have hkdom : k ∈ a.get_domain := (mem_get_domain a k).mpr ⟨p, hp, hkp⟩
    have hva : valueAt a k = some p.2 := valueAt_of_mem ha hp hkp
    have hvb : valueAt b k = some q.2 := valueAt_of_mem hb hq hkq
    have := hpt k hkdom
    rw [hva, hvb] at this
    simp only [Option.some.injEq] at this
    simp [this]

/-- C4: `operator==` is fragmentation- and order-insensitive: for region
maps with pairwise-disjoint entries, `region_map_eq a b` returns true iff
the domains are equal and the maps agree pointwise as piecewise-constant
functions over that common domain (a symmetric characterization that does
not depend on entry order or fragmentation of either operand). -/
theorem C4_equality_pointwise {V : Type} [DecidableEq V]
    (a b : region_map_t V)
    (ha : pairwise_disjoint a) (hb : pairwise_disjoint b) :
    region_map_eq a b = true ↔
      (a.get_domain = b.get_domain ∧
        ∀ k ∈ a.get_domain, valueAt a k = valueAt b k) :=
  region_map_eq_iff_pointwise a b ha hb

/-- Witness for C4: two maps carrying the same piecewise function with
different splits and orders compare equal. -/
theorem C4_witness :
    pairwise_disjoint (V := ℕ) ⟨[({0, 1}, 5), ({2}, 9)]⟩ ∧
      pairwise_disjoint (V := ℕ) ⟨[({2}, 9), ({1}, 5), ({0}, 5)]⟩ ∧
      region_map_eq (V := ℕ) ⟨[({0, 1}, 5), ({2}, 9)]⟩
        ⟨[({2}, 9), ({1}, 5), ({0}, 5)]⟩ = true :=
  ⟨by decide, by decide,
    (C4_equality_pointwise ⟨[({0, 1}, 5), ({2}, 9)]⟩
        ⟨[({2}, 9), ({1}, 5), ({0}, 5)]⟩ (by decide) (by decide)).mpr
      ⟨by decide, by decide⟩⟩

/- ## C3: pairwise disjointness is an invariant -/

theorem inter_eq_empty_of_subsets {r1 r2 s1 s2 : region_t}
    (h : r1 ∩ r2 = ∅) (h1 : s1 ⊆ r1) (h2 : s2 ⊆ r2) : s1 ∩ s2 = ∅ :=
  Finset.subset_empty.mp (h ▸ Finset.inter_subset_inter h1 h2)

theorem sdiff_inter_empty (s t : region_t) : (s \ t) ∩ t = ∅ := by
  apply Finset.ext
  intro x
  simp only [Finset.mem_inter, Finset.mem_sdiff, Finset.not_mem_empty,
    iff_false]
  tauto

theorem flatMap_subtract_eq_filterMap {V : Type}
    (l : List (region_t × V)) (N : List region_t) :
    (l.flatMap fun p => (region_subtract_many p.1 N).map fun j => (j, p.2)) =
      l.filterMap fun p =>
        if p.1 \ region_join N = ∅ then none
        else some (p.1 \ region_join N, p.2) := by
  induction l with
  | nil => rfl
  | cons hd tl ih =>
    have hsub : region_subtract_many hd.1 N =
        if hd.1 \ region_join N = ∅ then []
        else [hd.1 \ region_join N] := rfl
    rw [List.flatMap_cons, List.filterMap_cons, ih, hsub]
    by_cases h : hd.1 \ region_join N = ∅
    · rw [if_pos h, if_pos h]
      simp
    · rw [if_neg h, if_neg h]
      simp

theorem mask_pairwise_disjoint {V : Type} {m : region_map_t V}
    (hm : pairwise_disjoint m) (r : region_t) :
    pairwise_disjoint (m.mask r) := by
  unfold pairwise_disjoint region_map_t.mask at *
  rw [List.pairwise_filterMap]
  refine hm.imp ?_
  intro p q hpq
  intro b hb b' hb'
  simp only [region_intersection] at hb hb'
  split at hb
  · simp at hb
  · simp only [Option.mem_def, Option.some.injEq] at hb
    split at hb'
    · simp at hb'
    · simp only [Option.mem_def, Option.some.injEq] at hb'
      subst hb hb'
      exact inter_eq_empty_of_subsets hpq
        (Finset.inter_subset_left) (Finset.inter_subset_left)

theorem update_pairwise_disjoint {V : Type} {m n : region_map_t V}
    (hm : pairwise_disjoint m) (hn : pairwise_disjoint n) :
    pairwise_disjoint (m.update n) := by
  unfold pairwise_disjoint at *
  show List.Pairwise _
    ((m.regions_and_values.flatMap fun p =>
        (region_subtract_many p.1 (n.regions_and_values.map Prod.fst)).map
          fun j => (j, p.2))
      ++ n.regions_and_values)
  rw [flatMap_subtract_eq_filterMap, List.pairwise_append]
  set N := region_join (n.regions_and_values.map Prod.fst) with hN
  refine ⟨?_, hn, ?_⟩
  · rw [List.pairwise_filterMap]
    refine hm.imp ?_
    intro p q hpq b hb b' hb'
    split at hb
    · simp at hb
    · simp only [Option.mem_def, Option.some.injEq] at hb
      split at hb'
      · simp at hb'
      · simp only [Option.mem_def, Option.some.injEq] at hb'
        subst hb hb'
        exact inter_eq_empty_of_subsets hpq
          (Finset.sdiff_subset) (Finset.sdiff_subset)
  · intro a ha b hb
    obtain ⟨p, hp, hopt⟩ := List.mem_filterMap.mp ha
    have habase : a.1 = p.1 \ N := by
      split at hopt
      · simp at hopt
      · simp only [Option.some.injEq] at hopt
        rw [← hopt]
    have hbsub : b.1 ⊆ N :=
      subset_region_join (List.mem_map.mpr ⟨b, hb, rfl⟩)
    refine inter_eq_empty_of_subsets (sdiff_inter_empty p.1 N) ?_ hbsub
    rw [habase]

theorem transform_pairwise_disjoint {V W : Type} {m : region_map_t V}
    (hm : pairwise_disjoint m) (f : V → W) :
    pairwise_disjoint (region_map_transform m f) := by
  unfold pairwise_disjoint region_map_transform at *
  rw [List.pairwise_map]
  exact hm

/-- C3: pairwise disjointness of entries is an invariant: if `m` has
pairwise-disjoint entries then so do `m.mask r`, `m.update n` (for `n`
with pairwise-disjoint entries whose domain is contained in `m`'s),
`m.set r v`, and `region_map_transform m f`. -/
theorem C3_disjointness_invariant {V W : Type} (m n : region_map_t V)
    (r : region_t) (v : V) (f : V → W) (hm : pairwise_disjoint m) :
    pairwise_disjoint (m.mask r) ∧
      (pairwise_disjoint n →
        region_is_superset m.get_domain n.get_domain = true →
        pairwise_disjoint (m.update n)) ∧
      pairwise_disjoint (m.set r v) ∧
      pairwise_disjoint (region_map_transform m f) := by
  refine ⟨mask_pairwise_disjoint hm r,
    fun hn _ => update_pairwise_disjoint hm hn, ?_,
    transform_pairwise_disjoint hm f⟩
  exact update_pairwise_disjoint hm (by simp [pairwise_disjoint])

/-- Witness for C3 at a concrete input. -/
theorem C3_witness :
    pairwise_disjoint (V := ℕ) ⟨[({0, 1}, 5), ({2}, 9)]⟩ ∧
      pairwise_disjoint
        (region_map_t.mask (V := ℕ) ⟨[({0, 1}, 5), ({2}, 9)]⟩ {1, 2}) ∧
      pairwise_disjoint
        (region_map_t.update (V := ℕ) ⟨[({0, 1}, 5), ({2}, 9)]⟩
          ⟨[({1}, 7)]⟩) :=
  ⟨by decide,
    (C3_disjointness_invariant (V := ℕ) (W := ℕ) ⟨[({0, 1}, 5), ({2}, 9)]⟩
      ⟨[({1}, 7)]⟩ {1, 2} 3 id (by decide)).1,
    (C3_disjointness_invariant (V := ℕ) (W := ℕ) ⟨[({0, 1}, 5), ({2}, 9)]⟩
      ⟨[({1}, 7)]⟩ {1, 2} 3 id (by decide)).2.1 (by decide) (by decide)⟩

/- ## C2: update followed by mask recovers the overlay -/

theorem filterMap_mask_self {V : Type} (l : List (region_t × V)) (N : region_t)
    (hsub : ∀ p ∈ l, p.1 ⊆ N) :
    (l.filterMap fun p =>
        if region_is_empty (p.1 ∩ N) then none else some (p.1 ∩ N, p.2)) =
      l.filter fun p => !region_is_empty p.1 := by
  induction l with
  | nil => rfl
  | cons hd tl ih =>
    have hhd : hd.1 ∩ N = hd.1 :=
      Finset.inter_eq_left.mpr (hsub hd (List.mem_cons_self hd tl))
    have htl : ∀ p ∈ tl, p.1 ⊆ N := fun p hp => hsub p (List.mem_cons_of_mem hd hp)
    simp only [List.filterMap_cons, List.filter_cons, hhd, ih htl]
    by_cases h : region_is_empty hd.1 = true
    · simp [h]
    · simp [h]

theorem update_mask_pairs {V : Type} (m n : region_map_t V) :
    ((m.update n).mask n.get_domain).regions_and_values =
      n.regions_and_values.filter fun p => !region_is_empty p.1 := by
  show ((m.regions_and_values.flatMap fun p =>
        (region_subtract_many p.1 (n.regions_and_values.map Prod.fst)).map
          fun j => (j, p.2))
      ++ n.regions_and_values).filterMap _ = _
  rw [List.filterMap_append, flatMap_subtract_eq_filterMap]
  have h1 : ∀ a ∈ m.regions_and_values.filterMap fun p =>
      if p.1 \ region_join (n.regions_and_values.map Prod.fst) = ∅ then none
      else some (p.1 \ region_join (n.regions_and_values.map Prod.fst), p.2),
      (let ixn := region_intersection a.1 n.get_domain
        if region_is_empty ixn then none
        else some (ixn, a.2) : Option (region_t × V)) = none := by
    intro a ha
    obtain ⟨p, _, hopt⟩ := List.mem_filterMap.mp ha
    have ha1 : a.1 = p.1 \ region_join (n.regions_and_values.map Prod.fst) := by
      split at hopt
      · simp at hopt
      · simp only [Option.some.injEq] at hopt
        rw [← hopt]
    have hempty : a.1 ∩ n.get_domain = ∅ := by
      rw [ha1]
      exact sdiff_inter_empty _ _
    simp only [region_intersection]
    rw [hempty]
    simp [region_is_empty_iff]
  rw [List.filterMap_eq_nil_iff.mpr h1, List.nil_append]
  exact filterMap_mask_self n.regions_and_values n.get_domain
    fun p hp => subset_region_join (List.mem_map.mpr ⟨p, hp, rfl⟩)

theorem region_join_filter_empties {V : Type} (l : List (region_t × V)) :
    region_join ((l.filter fun p => !region_is_empty p.1).map Prod.fst) =
      region_join (l.map Prod.fst) := by
  apply Finset.ext
  intro k
  simp only [mem_region_join, List.mem_map, List.mem_filter]
  constructor
  · rintro ⟨r, ⟨p, ⟨hp, _⟩, rfl⟩, hk⟩
    exact ⟨p.1, ⟨p, hp, rfl⟩, hk⟩
  · rintro ⟨r, ⟨p, hp, rfl⟩, hk⟩
    have hne : ¬ region_is_empty p.1 = true := by
      intro hc
      rw [(region_is_empty_iff _).mp hc] at hk
      simp at hk
    exact ⟨p.1, ⟨p, ⟨hp, by simp [hne]⟩, rfl⟩, hk⟩

/-- C2: for all region maps `m` and `n` (with the documented invariant
that `n`'s entries are pairwise disjoint) such that `m.get_domain()` is a
superset of `n.get_domain()`, masking `m.update(n)` by `n.get_domain()`
yields a map equal to `n` under region-map equality. -/
theorem C2_update_override {V : Type} [DecidableEq V] (m n : region_map_t V)
    (hsup : region_is_superset m.get_domain n.get_domain = true)
    (hn : pairwise_disjoint n) :
    region_map_eq ((m.update n).mask n.get_domain) n = true := by
  simp only [region_map_eq, Bool.and_eq_true, decide_eq_true_eq,
    List.all_eq_true]
  constructor
  · show region_join
        ((((m.update n).mask n.get_domain).regions_and_values).map Prod.fst) =
      n.get_domain
    rw [update_mask_pairs, region_join_filter_empties]
    rfl
  · intro p hp j hj
    rw [update_mask_pairs] at hp
    have hpn : p ∈ n.regions_and_values := (List.mem_filter.mp hp).1
    obtain ⟨q, hq, hne, rfl⟩ := (mem_mask_pairs n p.1 j).mp hj
    have hqp : q = p := pairwise_disjoint_mem_eq hn hq hpn hne
    simp [hqp]

/-- Witness for C2 at a concrete input. -/
theorem C2_witness :
    region_is_superset
        (region_map_t.get_domain (V := ℕ) ⟨[({0, 1, 2}, 5)]⟩)
        (region_map_t.get_domain (V := ℕ) ⟨[({1}, 7)]⟩) = true ∧
      pairwise_disjoint (V := ℕ) ⟨[({1}, 7)]⟩ ∧
      region_map_eq
        ((region_map_t.update (V := ℕ) ⟨[({0, 1, 2}, 5)]⟩ ⟨[({1}, 7)]⟩).mask
          (region_map_t.get_domain (V := ℕ) ⟨[({1}, 7)]⟩))
        ⟨[({1}, 7)]⟩ = true :=
  ⟨by decide, by decide, C2_update_override _ _ (by decide) (by decide)⟩

/- ## C6: store-view metainfo round trip -/

/-- Modelled from the spec: a concrete store view (`protocol_t::store_t`
is supplied by the protocol module and is not among the core sources). It
covers a fixed region and keeps a metainfo region map; at rest the
metainfo's domain equals the region. -/
structure store_t (V : Type) : Type where
  region : region_t
  metainfo : region_map_t V

/-- Modelled from the spec: `get_metainfo` returns the stored metainfo
(whose domain, by the at-rest invariant, equals the view's region). -/
def store_t.get_metainfo {V : Type} (s : store_t V) : region_map_t V :=
  s.metainfo

/-- Modelled from the spec: `set_metainfo` replaces the metainfo over the
view's entire range with the given metainfo, overwriting overlapping
slices while keeping the at-rest invariant that the metainfo's domain
equals the view's region; this is exactly the region map's
domain-preserving `update`. -/
def store_t.set_metainfo {V : Type} (s : store_t V)
    (new_metainfo : region_map_t V) : store_t V :=
  { s with metainfo := s.metainfo.update new_metainfo }

theorem update_full_overlay {V : Type} (m n : region_map_t V)
    (h : m.get_domain ⊆ n.get_domain) :
    m.update n = n := by
  show (⟨(m.regions_and_values.flatMap fun p =>
      (region_subtract_many p.1 (n.regions_and_values.map Prod.fst)).map
        fun j => (j, p.2)) ++ n.regions_and_values⟩ : region_map_t V) = n
  rw [flatMap_subtract_eq_filterMap]
  have hnil : (m.regions_and_values.filterMap fun p =>
      if p.1 \ region_join (n.regions_and_values.map Prod.fst) = ∅ then none
      else some (p.1 \ region_join (n.regions_and_values.map Prod.fst), p.2)) = [] := by
    rw [List.filterMap_eq_nil_iff]
    intro p hp
    have hsub : p.1 ⊆ region_join (n.regions_and_values.map Prod.fst) :=
      fun k hk =>
        (show k ∈ n.get_domain from h ((mem_get_domain m k).mpr ⟨p, hp, hk⟩))
    have hempty : p.1 \ region_join (n.regions_and_values.map Prod.fst) = ∅ :=
      Finset.sdiff_eq_empty_iff_subset.mpr hsub
    simp [hempty]
  rw [hnil, List.nil_append]

theorem region_map_eq_self {V : Type} [DecidableEq V] (n : region_map_t V)
    (hn : pairwise_disjoint n) : region_map_eq n n = true := by
  simp only [region_map_eq, Bool.and_eq_true, decide_eq_true_eq,
    List.all_eq_true]
  refine ⟨trivial, fun p hp j hj => ?_⟩
  obtain ⟨q, hq, hne, rfl⟩ := (mem_mask_pairs n p.1 j).mp hj
  have hqp : q = p := pairwise_disjoint_mem_eq hn hq hp hne
  simp [hqp]

/-- Counterexample for C6: a store over region `{0, 1}` whose metainfo is
`{({0, 1}, 5)}`; after `set_metainfo {({0}, 7)}` (a strict-subset domain,
allowed by the precondition) `get_metainfo` does not equal the new
metainfo, because its domain is still the whole region. -/
theorem C6_counterexample :
    region_is_superset
        (store_t.region (V := ℕ) ⟨{0, 1}, ⟨[({0, 1}, 5)]⟩⟩)
        (region_map_t.get_domain (V := ℕ) ⟨[({0}, 7)]⟩) = true ∧
      region_map_eq
        ((store_t.set_metainfo (V := ℕ) ⟨{0, 1}, ⟨[({0, 1}, 5)]⟩⟩
            ⟨[({0}, 7)]⟩).get_metainfo)
        ⟨[({0}, 7)]⟩ = false := by
  constructor
  · decide
  · decide

/-- C6 (amended): for every store view satisfying the at-rest invariant
and every new metainfo with pairwise-disjoint entries, the postcondition
`get_metainfo() == new` holds when the new metainfo's domain equals the
view's entire region (for a strict subset only the masked round trip
holds, as the counterexample shows). -/
theorem C6_set_get_metainfo {V : Type} [DecidableEq V] (s : store_t V)
    (new_metainfo : region_map_t V)
    (hinv : s.metainfo.get_domain = s.region)
    (hdom : new_metainfo.get_domain = s.region)
    (hn : pairwise_disjoint new_metainfo) :
    region_map_eq (s.set_metainfo new_metainfo).get_metainfo new_metainfo
      = true := by
  have hfull : s.metainfo.get_domain ⊆ new_metainfo.get_domain := by
    rw [hinv, hdom]
  show region_map_eq (s.metainfo.update new_metainfo) new_metainfo = true
  rw [update_full_overlay s.metainfo new_metainfo hfull]
  exact region_map_eq_self new_metainfo hn

/-- Witness for the amended C6 at a concrete input. -/
theorem C6_witness :
    (region_map_t.get_domain (V := ℕ) ⟨[({0, 1}, 5)]⟩ = {0, 1} ∧
        region_map_t.get_domain (V := ℕ) ⟨[({0}, 7), ({1}, 8)]⟩ = {0, 1} ∧
        pairwise_disjoint (V := ℕ) ⟨[({0}, 7), ({1}, 8)]⟩) ∧
      region_map_eq
        ((store_t.set_metainfo (V := ℕ) ⟨{0, 1}, ⟨[({0, 1}, 5)]⟩⟩
            ⟨[({0}, 7), ({1}, 8)]⟩).get_metainfo)
        ⟨[({0}, 7), ({1}, 8)]⟩ = true :=
  ⟨⟨by decide, by decide, by decide⟩,
    C6_set_get_metainfo ⟨{0, 1}, ⟨[({0, 1}, 5)]⟩⟩ ⟨[({0}, 7), ({1}, 8)]⟩
      (by decide) (by decide) (by decide)⟩

/- ## C7: store subview masks the parent metainfo -/

/-- Embedding of `store_subview_t::get_metainfo` from `protocol_api.hpp`:
delegate to the parent view and mask the returned metainfo by the
subview's own region. -/
def store_subview_get_metainfo {V : Type} (parent_metainfo : region_map_t V)
    (region : region_t) : region_map_t V :=
  parent_metainfo.mask region

/-- C7: for a subview with region `r` contained in the parent's region,
if the parent's metainfo has the parent's region as its domain, then the
subview's `get_metainfo` is the parent's metainfo masked to `r`, and its
domain is exactly `r`. -/
theorem C7_subview_get_metainfo {V : Type} (parent_metainfo : region_map_t V)
    (parent_region r : region_t)
    (hpar : parent_metainfo.get_domain = parent_region)
    (hsub : region_is_superset parent_region r = true) :
    store_subview_get_metainfo parent_metainfo r = parent_metainfo.mask r ∧
      (store_subview_get_metainfo parent_metainfo r).get_domain = r := by
  refine ⟨rfl, ?_⟩
  show (parent_metainfo.mask r).get_domain = r
  rw [mask_get_domain, hpar, region_intersection]
  exact Finset.inter_eq_left.mpr (by simpa [region_is_superset] using hsub)

/-- Witness for C7 at a concrete input. -/
theorem C7_witness :
    region_map_t.get_domain (V := ℕ) ⟨[({0, 1}, 5), ({2}, 9)]⟩ = {0, 1, 2} ∧
      region_is_superset {0, 1, 2} {1, 2} = true ∧
      (store_subview_get_metainfo (V := ℕ) ⟨[({0, 1}, 5), ({2}, 9)]⟩
        {1, 2}).get_domain = {1, 2} :=
  ⟨by decide, by decide,
    (C7_subview_get_metainfo ⟨[({0, 1}, 5), ({2}, 9)]⟩ {0, 1, 2} {1, 2}
      (by decide) (by decide)).2⟩

/- ## C8: the master's reply on dispatcher success and failure -/

/-- Modelled from the spec: the failures the mirror dispatcher can raise
(`mirror_lost_exc_t` and `insufficient_mirrors_exc_t` live with the
dispatcher, outside the core sources); each carries the human-readable
string its `what()` returns. -/
inductive dispatcher_exc : Type where
  | mirror_lost (msg : String) : dispatcher_exc
  | insufficient_mirrors (msg : String) : dispatcher_exc

/-- The `what()` string of a dispatcher failure. -/
def dispatcher_exc.what : dispatcher_exc → String
  | .mirror_lost msg => msg
  | .insufficient_mirrors msg => msg

/-- Embedding of `master_t::on_read` from `clustering/master.hpp`: the
dispatcher call either produces a response or raises; the handler catches
`mirror_lost_exc_t` and `insufficient_mirrors_exc_t` and sends `e.what()`
in place of a response, never letting an exception escape. The result is
the single message sent to the reply address (a `boost::variant` of
response and string). -/
def on_read {R : Type} (dispatch_result : Except dispatcher_exc R) :
    R ⊕ String :=
  match dispatch_result with
  | .ok response => .inl response
  | .error e => .inr e.what

/-- Embedding of `master_t::on_write` from `clustering/master.hpp`, with
the same error surface as `on_read`. -/
def on_write {W : Type} (dispatch_result : Except dispatcher_exc W) :
    W ⊕ String :=
  match dispatch_result with
  | .ok response => .inl response
  | .error e => .inr e.what

/-- C8: for every dispatcher outcome, `on_read` and `on_write` send
exactly one reply: the response value on success, and the failure's
human-readable string on `MirrorLost` or `InsufficientMirrors`; being
total functions into the reply type, the handlers propagate no
exception. -/
theorem C8_master_error_surface {R W : Type} (r : R) (w : W)
    (e e' : dispatcher_exc) :
    on_read (Except.ok r) = Sum.inl r ∧
      on_read (R := R) (Except.error e) = Sum.inr e.what ∧
      on_write (Except.ok w) = Sum.inl w ∧
      on_write (W := W) (Except.error e') = Sum.inr e'.what :=
  ⟨rfl, rfl, rfl, rfl⟩

/- ## C9: registrant arms deregistration before the create send -/

/-- Observable cluster-side events of a registrant's lifecycle: arming
the deregisterer (`deregisterer.fun = ...` in the constructor), the send
to the registrar's create mailbox, and the send to its delete mailbox
(`send_deregister_message`). Ids and peers are naturals. -/
inductive registrant_event (D : Type) : Type where
  | arm_deregister (rid : ℕ) : registrant_event D
  | send_create (rid : ℕ) (peer : ℕ) (initial_value : D) : registrant_event D
  | send_delete (rid : ℕ) : registrant_event D

/-- Embedding of `registrant_t::registrant_t` from
`clustering/registrant.hpp`: after minting `registration_id`, the
constructor body first sets `deregisterer.fun` (arming deregistration
bound to the delete mailbox and the fresh id) and only then sends
`(id, sender-identity, initial_value)` to the create mailbox. -/
def registrant_construct_events {D : Type} (rid peer : ℕ) (v : D) :
    List (registrant_event D) :=
  [.arm_deregister rid, .send_create rid peer v]

/-- Embedding of registrant destruction: the `death_runner_t` member
fires the armed action exactly once, sending the registration id to the
delete mailbox (`send_deregister_message`). This member is destroyed both
on normal destruction and when the constructor fails after the create
send, so the same single event results in either case. -/
def registrant_destroy_events {D : Type} (rid : ℕ) :
    List (registrant_event D) :=
  [.send_delete rid]

/-- Events over a whole registrant lifecycle that reaches the create send
and is later destroyed; `fail_mid_construction` records whether the
destruction happened because the constructor failed after the send (the
unwinding destroys `deregisterer` all the same). -/
def registrant_lifecycle_events {D : Type} (fail_mid_construction : Bool)
    (rid peer : ℕ) (v : D) : List (registrant_event D) :=
  registrant_construct_events rid peer v ++ registrant_destroy_events rid

/-- Number of delete messages carrying `rid` in a list of events. -/
def count_deletes {D : Type} (rid : ℕ) (l : List (registrant_event D)) : ℕ :=
  (l.filter fun e =>
    match e with
    | .send_delete r => decide (r = rid)
    | _ => false).length

/-- C9: the deregistration action is armed strictly before the create
message is sent, and every lifecycle that is destroyed after the create
send (whether or not the constructor failed after the send) contains
exactly one delete message carrying the registration id. -/
theorem C9_registrant_deregistration {D : Type}
    (fail_mid_construction : Bool) (rid peer : ℕ) (v : D) :
    registrant_construct_events rid peer v =
        [.arm_deregister rid, .send_create rid peer v] ∧
      count_deletes rid
        (registrant_lifecycle_events fail_mid_construction rid peer v) = 1 := by
  refine ⟨rfl, ?_⟩
  simp [registrant_lifecycle_events, registrant_construct_events,
    registrant_destroy_events, count_deletes]

/- ## C10: the one-waiter condition variable -/

/-- Embedding of the state of `one_waiter_cond_t` from
`concurrency/cond_var.cc`: whether it has been pulsed and which coroutine
(identified by a natural) is waiting, if any. -/
structure one_waiter_cond_t : Type where
  pulsed_ : Bool
  waiter_ : Option ℕ

/-- Embedding of `one_waiter_cond_t::pulse`: asserts the condition was
not already pulsed (assertion failure is `none`), sets `pulsed_`, and if
a waiter is registered clears `waiter_` before notifying it. The result
carries the state as seen at notification time together with the
notified coroutine, if any. -/
def one_waiter_cond_t.pulse (s : one_waiter_cond_t) :
    Option (one_waiter_cond_t × Option ℕ) :=
  if s.pulsed_ then none
  else
    match s.waiter_ with
    | some w => some (⟨true, none⟩, some w)
    | none => some (⟨true, none⟩, none)

/-- Embedding of `one_waiter_cond_t::wait_eagerly`: asserts no waiter is
registered (assertion failure is `none`); if already pulsed it returns
immediately without suspending, otherwise it registers the caller and
suspends. The boolean records whether the call suspended. -/
def one_waiter_cond_t.wait_eagerly (s : one_waiter_cond_t) (self : ℕ) :
    Option (one_waiter_cond_t × Bool) :=
  match s.waiter_ with
  | some _ => none
  | none =>
    if s.pulsed_ then some (s, false)
    else some (⟨s.pulsed_, some self⟩, true)

/-- C10: pulsing an already-pulsed condition and waiting while another
waiter is registered are assertion failures; waiting after a pulse
returns immediately without suspending; and a pulse that finds a waiter
clears the waiter field before notifying it, notifying exactly that one
waiter. -/
theorem C10_one_waiter_cond (s : one_waiter_cond_t) (self w : ℕ) :
    (s.pulsed_ = true → s.pulse = none) ∧
      (s.waiter_ = some w → s.wait_eagerly self = none) ∧
      (s.pulsed_ = true → s.waiter_ = none →
        s.wait_eagerly self = some (s, false)) ∧
      (s.pulsed_ = false → s.waiter_ = some w →
        s.pulse = some (⟨true, none⟩, some w)) := by
  refine ⟨fun hp => ?_, fun hw => ?_, fun hp hw => ?_, fun hp hw => ?_⟩
  · simp [one_waiter_cond_t.pulse, hp]
  · simp [one_waiter_cond_t.wait_eagerly, hw]
  · simp [one_waiter_cond_t.wait_eagerly, hp, hw]
  · simp [one_waiter_cond_t.pulse, hp, hw]

/-- Witness for C10: each scenario at a concrete state. -/
theorem C10_witness :
    one_waiter_cond_t.pulse ⟨true, none⟩ = none ∧
      one_waiter_cond_t.wait_eagerly ⟨false, some 3⟩ 0 = none ∧
      one_waiter_cond_t.wait_eagerly ⟨true, none⟩ 0 =
        some (⟨true, none⟩, false) ∧
      one_waiter_cond_t.pulse ⟨false, some 3⟩ =
        some (⟨true, none⟩, some 3) :=
  ⟨(C10_one_waiter_cond ⟨true, none⟩ 0 3).1 rfl,
    (C10_one_waiter_cond ⟨false, some 3⟩ 0 3).2.1 rfl,
    (C10_one_waiter_cond ⟨true, none⟩ 0 3).2.2.1 rfl rfl,
    (C10_one_waiter_cond ⟨false, some 3⟩ 0 3).2.2.2 rfl rfl⟩
